import Mathlib

deriving instance DecidableEq for Except

/-!
Shallow embedding of the LSM-tree storage engine of `rust-solo-all-db`
(src/lib.rs, src/engine/{bloom,sstable,level,lsm,wal,leveled_compaction}.rs),
together with theorems settling the frozen claims about its specification.

Modelling conventions:
* Rust `String` keys/values/paths are Lean `String`; comparisons are byte-wise
  lexicographic, implemented over the character list (UTF-8 byte order and
  Unicode scalar order coincide for valid Unicode strings).
* Machine integers (`usize`/`u64`) are `Nat`, with `% 2^64` exactly where the
  source performs wrapping arithmetic.
* File contents are carried in the `SSTable` handle (`records` models the
  immutable file body; `load_records` re-reads exactly what was written).
* A Rust panic (e.g. `hash % 0`) is modelled as `Option.none`; `DbResult`
  errors are `Except.error`.
* The hash functions (`DefaultHasher`/`FnvHasher`) and the `f64` formulas in
  `BloomFilter::new` are environmental: they are parameters (`HashParams`)
  and all engine theorems hold for every instantiation.  The `f64` pipeline
  itself is modelled separately (`F64`) for the claim that depends on it.
-/

namespace LsmDb

/-- Byte-wise lexicographic strict order on character lists, mirroring Rust's
`Ord for String` (which compares UTF-8 bytes; on valid Unicode this order
equals scalar-value lexicographic order). -/
def charsLt : List Char → List Char → Bool
  | [], [] => false
  | [], _ :: _ => true
  | _ :: _, [] => false
  | a :: as, b :: bs =>
    if a.toNat < b.toNat then true
    else if b.toNat < a.toNat then false
    else charsLt as bs

/-- `a < b` for Rust strings. -/
def strLt (a b : String) : Bool := charsLt a.data b.data

/-- `a <= b` for Rust strings. -/
def strLe (a b : String) : Bool := !(strLt b a)

/-- `src/lib.rs` `Value`: the unified data/tombstone variant. -/
inductive Value where
  | data (s : String)
  | tombstone
deriving DecidableEq

/-- `src/engine/sstable.rs` `Record`: unit of SST storage. -/
structure Record where
  key : String
  value : Value
deriving DecidableEq

/-- `src/lib.rs` `WALEntry`. -/
inductive WALEntry where
  | insert (key value : String)
  | delete (key : String)
deriving DecidableEq

/-- `BTreeMap<String, Value>.insert` on the sorted-association-list model of a
`BTreeMap` (used for the MemTable and the compactor's merge map): overwrite
the entry for an existing key, keep keys strictly sorted. -/
def btInsert : List (String × Value) → String → Value → List (String × Value)
  | [], k, v => [(k, v)]
  | (k', v') :: rest, k, v =>
    if strLt k k' then (k, v) :: (k', v') :: rest
    else if k = k' then (k, v) :: rest
    else (k', v') :: btInsert rest k v

/-- `BTreeMap<String, Value>.get`. -/
def btGet (m : List (String × Value)) (k : String) : Option Value :=
  (m.find? (fun kv => kv.1 == k)).map Prod.snd

/-! ## Bloom filter (`src/engine/bloom.rs`) -/

/-- 2^64, the wrapping modulus of the `u64` hash arithmetic. -/
def u64Mod : Nat := 2 ^ 64

/-- Environmental parameters of the Bloom filter: the bit-array size and
hash-function count computed by the `f64` formulas in `BloomFilter::new`
(at the fixed false-positive rate 0.01 used by every SST call site), and the
combined `DefaultHasher`/`FnvHasher` value `hash_item(item, seed)`.  All
engine theorems quantify over these. -/
structure HashParams where
  bitSize : Nat → Nat
  hashCount : Nat → Nat
  hashItem : String → Nat → Nat

/-- `BloomFilter` state: bit array, hash-function count, expected item count. -/
structure BloomFilter where
  bits : List Bool
  hash_functions : Nat
  expected_items : Nat
deriving DecidableEq

/-- `BloomFilter::new(expected_items, 0.01)`: fresh all-false bit array of the
`f64`-computed size, with the `f64`-computed hash count (see `HashParams`). -/
def BloomFilter.new (hp : HashParams) (expected_items : Nat) : BloomFilter :=
  { bits := List.replicate (hp.bitSize expected_items) false
    hash_functions := hp.hashCount expected_items
    expected_items := expected_items }

/-- `BloomFilter::get_hash_positions`: `pos_i = (h1 +w i *w h2) % m` for
`i = 0..k-1` (`+w`/`*w` wrapping in `u64`).  The loop's first iteration
evaluates `hash % m`, which panics when `m = 0`; a panic is reached exactly
when `m = 0` and the loop runs at least once, modelled as `none`. -/
def getHashPositions (hp : HashParams) (hashFunctions bitsLen : Nat)
    (item : String) : Option (List Nat) :=
  let hash1 := hp.hashItem item 0 % u64Mod
  let hash2 := hp.hashItem item 1 % u64Mod
  if bitsLen = 0 ∧ hashFunctions ≠ 0 then none
  else some ((List.range hashFunctions).map fun i =>
    (hash1 + i * hash2 % u64Mod) % u64Mod % bitsLen)

/-- `BloomFilter::insert`: set every hash position. -/
def BloomFilter.insert (hp : HashParams) (bf : BloomFilter) (item : String) :
    Option BloomFilter :=
  match getHashPositions hp bf.hash_functions bf.bits.length item with
  | none => none
  | some ps => some { bf with bits := ps.foldl (fun bs p => bs.set p true) bf.bits }

/-- `BloomFilter::contains`: true iff every hash position is set
(`bits.get(p).unwrap_or(false)`). -/
def BloomFilter.contains (hp : HashParams) (bf : BloomFilter) (item : String) :
    Option Bool :=
  match getHashPositions hp bf.hash_functions bf.bits.length item with
  | none => none
  | some ps => some (ps.all fun p => bf.bits.getD p false)

/-- The `for key in keys { bloom_filter.insert(key); }` loop of
`SSTable::create_with_level` / `SSTable::open`. -/
def bloomInsertAll (hp : HashParams) : List String → BloomFilter → Option BloomFilter
  | [], bf => some bf
  | k :: ks, bf =>
    match BloomFilter.insert hp bf k with
    | none => none
    | some bf' => bloomInsertAll hp ks bf'

/-! ## SSTable (`src/engine/sstable.rs`) -/

/-- In-memory `SSTable` handle.  `records` additionally carries the immutable
file body (the `Vec<Record>` that `create_with_level` serializes and
`load_records_from_path` deserializes back verbatim). -/
structure SSTable where
  file_path : String
  records : List Record
  record_count : Nat
  bloom_filter : BloomFilter
  level : Nat
  min_key : String
  max_key : String
deriving DecidableEq

/-- `SSTable::create_with_level`: write the `BTreeMap` (sorted association
list) as records in key order, build the Bloom filter over the keys, record
min/max keys (`""` when empty) and the level.  (`SSTable::create` is the same
code.) -/
def SSTable.createWithLevel (hp : HashParams) (path : String)
    (data : List (String × Value)) (level : Nat) : Option SSTable :=
  let records := data.map fun kv => { key := kv.1, value := kv.2 : Record }
  let keys := data.map Prod.fst
  match bloomInsertAll hp keys (BloomFilter.new hp data.length) with
  | none => none
  | some bf =>
    some { file_path := path, records := records, record_count := records.length
           bloom_filter := bf, level := level
           min_key := keys.headD "", max_key := keys.getLastD "" }

/-- The record-scan loop of `SSTable::get`: on a key match return the payload
(`Data`) or `None` (tombstone); stop early once `record.key > key`. -/
def scanFind : List Record → String → Option String
  | [], _ => none
  | r :: rs, key =>
    if r.key = key then
      match r.value with
      | Value.data s => some s
      | Value.tombstone => none
    else if strLt key r.key then none
    else scanFind rs key

/-- `SSTable::get`: Bloom-filter gate, then scan the records.  The outer
`Option` is the panic layer; the Rust `DbResult` I/O errors cannot occur in
the model (file contents are in the handle).  Note the tombstone case and the
absent case both return `none`: the caller cannot distinguish them. -/
def SSTable.get (hp : HashParams) (sst : SSTable) (key : String) :
    Option (Option String) :=
  match BloomFilter.contains hp sst.bloom_filter key with
  | none => none
  | some false => some none
  | some true => some (scanFind sst.records key)

/-- `SSTable::open`: decode the record stream (`Except.error` = undecodable
file), rebuild count, Bloom filter and min/max keys — and hard-code
`level: 0` ("Default to level 0"), regardless of the file name. -/
def SSTable.openFile (hp : HashParams) (path : String)
    (content : Except Unit (List Record)) : Option (Except Unit SSTable) :=
  match content with
  | .error e => some (.error e)
  | .ok records =>
    match bloomInsertAll hp (records.map Record.key)
        (BloomFilter.new hp records.length) with
    | none => none
    | some bf =>
      some (.ok { file_path := path, records := records
                  record_count := records.length, bloom_filter := bf
                  level := 0
                  min_key := ((records.head?).map Record.key).getD ""
                  max_key := ((records.getLast?).map Record.key).getD "" })

/-! ## Level manager (`src/engine/level.rs`) -/

/-- Stable insertion sort (Rust `sort_by` is stable; on the single- and
two-element vectors arising here any stable sort agrees with it). -/
def insertBy {α : Type} (le : α → α → Bool) (a : α) : List α → List α
  | [] => [a]
  | b :: bs => if le a b then a :: b :: bs else b :: insertBy le a bs

def sortBy {α : Type} (le : α → α → Bool) : List α → List α
  | [] => []
  | a :: as => insertBy le a (sortBy le as)

/-- `BTreeMap<usize, Vec<SSTable>>.get`. -/
def levelsGet (levels : List (Nat × List SSTable)) (l : Nat) :
    Option (List SSTable) :=
  (levels.find? fun e => e.1 == l).map Prod.snd

/-- `BTreeMap<usize, Vec<SSTable>>.insert` (sorted by level). -/
def levelsSet : List (Nat × List SSTable) → Nat → List SSTable →
    List (Nat × List SSTable)
  | [], l, v => [(l, v)]
  | (l', v') :: rest, l, v =>
    if l < l' then (l, v) :: (l', v') :: rest
    else if l = l' then (l, v) :: rest
    else (l', v') :: levelsSet rest l v

/-- `BTreeMap.remove` of a level entry. -/
def levelsRemove (levels : List (Nat × List SSTable)) (l : Nat) :
    List (Nat × List SSTable) :=
  levels.filter fun e => e.1 ≠ l

/-- `LevelManager` state. -/
structure LevelManager where
  levels : List (Nat × List SSTable)
  max_level : Nat
  level_size_multiplier : Nat
  level_0_file_limit : Nat
deriving DecidableEq

/-- `LevelManager::new()`: defaults multiplier 10, L0 file limit 4. -/
def LevelManager.new : LevelManager :=
  { levels := [], max_level := 0, level_size_multiplier := 10, level_0_file_limit := 4 }

/-- `LevelManager::add_sstable`: bump `max_level`, push to the back of the
level's vector, and re-sort levels ≥ 1 by `min_key` (L0 stays in insertion
order, newest flush last). -/
def LevelManager.addSSTable (lm : LevelManager) (sst : SSTable) (level : Nat) :
    LevelManager :=
  let lm := if level > lm.max_level then { lm with max_level := level } else lm
  let vec := (levelsGet lm.levels level).getD [] ++ [sst]
  let vec := if level > 0 then sortBy (fun a b => strLe a.min_key b.min_key) vec else vec
  { lm with levels := levelsSet lm.levels level vec }

def LevelManager.getSSTablesAtLevel (lm : LevelManager) (level : Nat) : List SSTable :=
  (levelsGet lm.levels level).getD []

/-- `LevelManager::get_all_sstables`: concatenate levels `0..=max_level` in
order; each level's vector is used as stored. -/
def LevelManager.getAllSSTables (lm : LevelManager) : List SSTable :=
  (List.range (lm.max_level + 1)).foldl
    (fun acc l => acc ++ lm.getSSTablesAtLevel l) []

/-- `LevelManager::get_level_size`: total record count at a level. -/
def LevelManager.getLevelSize (lm : LevelManager) (level : Nat) : Nat :=
  ((lm.getSSTablesAtLevel level).map fun s => s.record_count).sum

/-- `LevelManager::get_max_level_size`. -/
def LevelManager.getMaxLevelSize (lm : LevelManager) (level : Nat) : Nat :=
  match level with
  | 0 => lm.level_0_file_limit
  | 1 => 10 * 1024 * 1024
  | _ => 10 * 1024 * 1024 * lm.level_size_multiplier ^ (level - 1)

def LevelManager.getLevelCount (lm : LevelManager) (level : Nat) : Nat :=
  ((levelsGet lm.levels level).map List.length).getD 0

/-- `LevelManager::should_compact`: L0 by file count (`>=` limit), L ≥ 1 by
`level_size >= max_size`. -/
def LevelManager.shouldCompact (lm : LevelManager) (level : Nat) : Bool :=
  match level with
  | 0 =>
    match levelsGet lm.levels 0 with
    | none => false
    | some files => files.length ≥ lm.level_0_file_limit
  | _ => lm.getLevelSize level ≥ lm.getMaxLevelSize level

/-- `LevelManager::get_overlapping_sstables`:
`sstable.max_key >= min_key && sstable.min_key <= max_key`. -/
def LevelManager.getOverlapping (lm : LevelManager) (level : Nat)
    (minKey maxKey : String) : List SSTable :=
  (lm.getSSTablesAtLevel level).filter fun s =>
    strLe minKey s.max_key && strLe s.min_key maxKey

/-- `LevelManager::remove_sstables`: drop by `file_path` at each table's own
`level`, remove emptied levels, recompute `max_level` from the remaining keys
(`unwrap_or(0)`). -/
def LevelManager.removeSSTables (lm : LevelManager) (toRemove : List SSTable) :
    LevelManager :=
  let lm := toRemove.foldl (fun lm s =>
    match levelsGet lm.levels s.level with
    | none => lm
    | some vec =>
      let vec := vec.filter fun t => t.file_path ≠ s.file_path
      if vec.isEmpty then { lm with levels := levelsRemove lm.levels s.level }
      else { lm with levels := levelsSet lm.levels s.level vec }) lm
  { lm with max_level := ((lm.levels.map Prod.fst).foldl Nat.max 0) }

/-! ## LSM engine (`src/engine/lsm.rs`) -/

/-- The fields of `LSMConfig` the embedding can observe (`data_dir` and the
compaction thread settings are I/O- and scheduling-only). -/
structure LSMConfig where
  memtable_size_limit : Nat
  enable_wal : Bool
deriving DecidableEq

/-- Decimal digits of `n` (for the `{:06}`/`{:02}` filename formats). -/
def natDigits (n : Nat) : List Char :=
  (Nat.toDigits 10 n)

/-- `format!("{:0w}", n)`: zero-padded decimal. -/
def padZeros (w n : Nat) : String :=
  let ds := natDigits n
  String.mk (List.replicate (w - ds.length) '0' ++ ds)

/-- Flush file name `format!("sstable_{:06}.sst", id)`. -/
def sstFlushName (id : Nat) : String :=
  "sstable_" ++ padZeros 6 id ++ ".sst"

/-- Compaction output name `format!("sstable_L{:02}_{:06}.sst", level, id)`. -/
def sstCompactedName (level id : Nat) : String :=
  "sstable_L" ++ padZeros 2 level ++ "_" ++ padZeros 6 id ++ ".sst"

/-- `LSMTree` state.  `wal` holds the logical content of `wal.log`;
`compactor_next_id` is the `LeveledCompactor`'s own (separately stored)
sequence counter. -/
structure LSMTree where
  memtable : List (String × Value)
  level_manager : LevelManager
  config : LSMConfig
  next_sstable_id : Nat
  wal : List WALEntry
  compactor_next_id : Nat
deriving DecidableEq

/-- `LSMTree::with_config` on an empty data directory: no SSTs to load
(`determine_next_id` → 0), empty WAL to replay, fresh MemTable. -/
def LSMTree.newEmptyDir (cfg : LSMConfig) : LSMTree :=
  { memtable := [], level_manager := LevelManager.new, config := cfg
    next_sstable_id := 0, wal := [], compactor_next_id := 0 }

/-- `LSMTree::flush_memtable`: no-op when empty, otherwise take the next id,
write an L0 SST from the MemTable snapshot, register it at level 0, clear the
MemTable, truncate the WAL (when enabled). -/
def LSMTree.flushMemtable (hp : HashParams) (t : LSMTree) : Option LSMTree :=
  if t.memtable.isEmpty then some t
  else
    match SSTable.createWithLevel hp (sstFlushName t.next_sstable_id) t.memtable 0 with
    | none => none
    | some sst =>
      some { t with
        memtable := []
        level_manager := t.level_manager.addSSTable sst 0
        next_sstable_id := t.next_sstable_id + 1
        wal := if t.config.enable_wal then [] else t.wal }

/-- `LSMTree::insert` (`put`): append `Insert` to the WAL (when enabled),
insert `Data` into the MemTable, flush when `len >= memtable_size_limit`. -/
def LSMTree.insert (hp : HashParams) (t : LSMTree) (key value : String) :
    Option LSMTree :=
  let t := if t.config.enable_wal
    then { t with wal := t.wal ++ [WALEntry.insert key value] } else t
  let t := { t with memtable := btInsert t.memtable key (Value.data value) }
  if t.memtable.length ≥ t.config.memtable_size_limit then t.flushMemtable hp
  else some t

/-- `LSMTree::delete`: append `Delete` to the WAL (when enabled), insert a
tombstone, flush when over the limit. -/
def LSMTree.delete (hp : HashParams) (t : LSMTree) (key : String) :
    Option LSMTree :=
  let t := if t.config.enable_wal
    then { t with wal := t.wal ++ [WALEntry.delete key] } else t
  let t := { t with memtable := btInsert t.memtable key Value.tombstone }
  if t.memtable.length ≥ t.config.memtable_size_limit then t.flushMemtable hp
  else some t

/-- `LSMTree::flush`: flush the MemTable if non-empty. -/
def LSMTree.flush (hp : HashParams) (t : LSMTree) : Option LSMTree :=
  if t.memtable.isEmpty then some t else t.flushMemtable hp

/-- The SST walk of `LSMTree::get`: for each SST in order, skip unless
`might_contain`; then `sstable.get` — return on `Some`, continue on `None`
(whether that `None` came from a tombstone or from absence). -/
def getFromSSTables (hp : HashParams) : List SSTable → String → Option (Option String)
  | [], _ => some none
  | sst :: rest, key =>
    match BloomFilter.contains hp sst.bloom_filter key with
    | none => none
    | some false => getFromSSTables hp rest key
    | some true =>
      match SSTable.get hp sst key with
      | none => none
      | some (some v) => some (some v)
      | some none => getFromSSTables hp rest key

/-- `LSMTree::get`: MemTable first (`Data` → `Some`, `Tombstone` → `None`),
then the level manager's SSTs in `get_all_sstables` order. -/
def LSMTree.get (hp : HashParams) (t : LSMTree) (key : String) :
    Option (Option String) :=
  match btGet t.memtable key with
  | some (Value.data s) => some (some s)
  | some Value.tombstone => some none
  | none => getFromSSTables hp t.level_manager.getAllSSTables key

/-! ## Leveled compactor (`src/engine/leveled_compaction.rs`) -/

/-- UTF-8 byte length of one scalar value (Rust `String::len` counts bytes). -/
def charUtf8Len (c : Char) : Nat :=
  if c.toNat < 128 then 1
  else if c.toNat < 2048 then 2
  else if c.toNat < 65536 then 3
  else 4

/-- Rust `String::len` (byte length). -/
def byteLen (s : String) : Nat :=
  (s.data.map charUtf8Len).sum

/-- `estimated_size = key.len() + (payload byte length, 0 for tombstones)`. -/
def estimatedSize (k : String) (v : Value) : Nat :=
  byteLen k + (match v with | Value.data s => byteLen s | Value.tombstone => 0)

/-- `MAX_SSTABLE_SIZE`: 64 MiB split threshold. -/
def MAX_SSTABLE_SIZE : Nat := 64 * 1024 * 1024

/-- The output-splitting loop of `LeveledCompactor::merge_sstables`: walk the
merged map in key order; when adding a record would push the running
estimated size past 64 MiB (and the current chunk is non-empty), emit the
chunk as an SST with a fresh compactor id, then continue; emit the final
chunk if non-empty. -/
def mergeSplit (hp : HashParams) (targetLevel : Nat) :
    List (String × Value) → List SSTable → List (String × Value) → Nat → Nat →
    Option (List SSTable × Nat)
  | [], news, cur, _, id =>
    if cur.isEmpty then some (news, id)
    else
      match SSTable.createWithLevel hp (sstCompactedName targetLevel id) cur targetLevel with
      | none => none
      | some sst => some (news ++ [sst], id + 1)
  | (k, v) :: rest, news, cur, curSize, id =>
    let est := estimatedSize k v
    if curSize + est > MAX_SSTABLE_SIZE && !cur.isEmpty then
      match SSTable.createWithLevel hp (sstCompactedName targetLevel id) cur targetLevel with
      | none => none
      | some sst =>
        mergeSplit hp targetLevel rest (news ++ [sst]) (btInsert [] k v) est (id + 1)
    else
      mergeSplit hp targetLevel rest news (btInsert cur k v) (curSize + est) id

/-- `LeveledCompactor::merge_sstables`: load every input's records into one
`BTreeMap` in input order (later inserts override earlier ones), drop every
record whose final value is `Tombstone` — unconditionally, whatever
`target_level` is — then split into output SSTs.  Returns the new SSTs and
the advanced compactor id.  (The final `remove_file` calls touch only the
filesystem.) -/
def mergeSSTables (hp : HashParams) (sstables : List SSTable)
    (targetLevel : Nat) (nextId : Nat) : Option (List SSTable × Nat) :=
  if sstables.isEmpty then some ([], nextId)
  else
    let allRecords := sstables.foldl
      (fun m sst => sst.records.foldl (fun m r => btInsert m r.key r.value) m) []
    let kept := allRecords.filter fun kv =>
      match kv.2 with | Value.tombstone => false | _ => true
    if kept.isEmpty then some ([], nextId)
    else mergeSplit hp targetLevel kept [] [] 0 nextId

/-! ## Startup: loading existing SSTs (`src/engine/lsm.rs`) -/

/-- `path.extension() == Some("sst")` for the names arising here. -/
def hasSstExt (name : String) : Bool :=
  name.data.length ≥ 5 &&
    name.data.drop (name.data.length - 4) == ['.', 's', 's', 't']

/-- Rust `str::parse::<u64>` restricted to plain decimal digits (the only
form the engine's filenames use). -/
def parseNat (cs : List Char) : Option Nat :=
  if cs ≠ [] ∧ cs.all (fun c => 48 ≤ c.toNat ∧ c.toNat ≤ 57) then
    some (cs.foldl (fun n c => n * 10 + (c.toNat - 48)) 0)
  else none

/-- `determine_next_id`: for each loaded SST, take the file stem, strip the
`sstable_` prefix and parse the rest as a number; `max + 1`, or 0 when no
name parses (compaction-style names `sstable_Lxx_yyyy` never parse). -/
def stripSstNum (path : String) : Option Nat :=
  let stem := path.data.take (path.data.length - 4)
  if stem.take 8 = "sstable_".data then parseNat (stem.drop 8) else none

def determineNextId (ssts : List SSTable) : Nat :=
  let ids := ssts.filterMap fun s => stripSstNum s.file_path
  match ids with
  | [] => 0
  | _ => ids.foldl Nat.max 0 + 1

/-- The open loop of `load_existing_sstables`: `SSTable::open` each file in
order; on `Err` print a warning and skip the file; on `Ok` push it. -/
def loadLoop (hp : HashParams) :
    List (String × Except Unit (List Record)) → List SSTable → Option (List SSTable)
  | [], acc => some acc
  | f :: rest, acc =>
    match SSTable.openFile hp f.1 f.2 with
    | none => none
    | some (.error _) => loadLoop hp rest acc
    | some (.ok sst) => loadLoop hp rest (acc ++ [sst])

/-- `load_existing_sstables`: keep `.sst` entries, sort by name, reverse
("newest first"), then open each, skipping undecodable files.  The directory
is modelled as a list of `(file name, decode result of the file's record
stream)`. -/
def loadExistingSSTables (hp : HashParams)
    (files : List (String × Except Unit (List Record))) : Option (List SSTable) :=
  let sstFiles := files.filter fun f => hasSstExt f.1
  let ordered := (sortBy (fun a b => strLe a.1 b.1) sstFiles).reverse
  loadLoop hp ordered []

/-- `LSMTree::with_config` over an existing data directory, with
`enable_wal = false` (so no WAL is opened or replayed): load the SSTs,
compute the next id, and register each SST with the level manager at
`sstable.level()`. -/
def openFromDir (hp : HashParams) (cfg : LSMConfig)
    (files : List (String × Except Unit (List Record))) : Option LSMTree :=
  match loadExistingSSTables hp files with
  | none => none
  | some ssts =>
    let nextId := determineNextId ssts
    let lm := ssts.foldl (fun lm s => lm.addSSTable s s.level) LevelManager.new
    some { memtable := [], level_manager := lm, config := cfg
           next_sstable_id := nextId, wal := [], compactor_next_id := nextId }

/-! ## WAL (`src/engine/wal.rs`) -/

/-- `u32::from_le_bytes` on four bytes. -/
def u32FromLE (b0 b1 b2 b3 : Nat) : Nat :=
  b0 + 256 * b1 + 65536 * b2 + 16777216 * b3

/-- `u32::to_le_bytes` of `n < 2^32`. -/
def u32ToLE (n : Nat) : List Nat :=
  [n % 256, n / 256 % 256, n / 65536 % 256, n / 16777216 % 256]

/-- The read loop of `WAL::read_all` over the file's byte list.
`read_exact` on the 4-byte length hits `UnexpectedEof` whenever fewer than 4
bytes remain (0 to 3 partial bytes) → break, return the entries so far.
`read_exact` on the payload with fewer than `len` bytes left also hits
`UnexpectedEof`, but that branch `map_err`s it into a hard error.  A
deserialization failure is likewise an error.  `decode` stands for
`bincode::deserialize::<WALEntry>`. -/
def readAllGo (decode : List Nat → Except Unit WALEntry) :
    List Nat → List WALEntry → Except Unit (List WALEntry)
  | b0 :: b1 :: b2 :: b3 :: rest, acc =>
    let len := u32FromLE b0 b1 b2 b3
    if rest.length < len then .error ()
    else
      match decode (rest.take len) with
      | .error e => .error e
      | .ok entry => readAllGo decode (rest.drop len) (acc ++ [entry])
  | _, acc => .ok acc
termination_by bytes _ => bytes.length
decreasing_by
  simp only [List.length_cons, List.length_drop]
  omega

/-- `WAL::read_all`. -/
def walReadAll (decode : List Nat → Except Unit WALEntry) (bytes : List Nat) :
    Except Unit (List WALEntry) :=
  readAllGo decode bytes []

/-- The framing `WAL::append` produces: `len:u32-LE || payload` per entry,
with `encode` standing for `bincode::serialize`. -/
def walFrames (encode : WALEntry → List Nat) : List WALEntry → List Nat
  | [] => []
  | e :: es => u32ToLE (encode e).length ++ encode e ++ walFrames encode es

/-! ## The `f64` pipeline of `BloomFilter::new` (`src/engine/bloom.rs`)

A small exact model of IEEE-754 double values as rationals plus the special
values NaN/±∞.  The arithmetic below agrees with IEEE semantics on every
operation whose result is exactly representable — in particular products
with zero, `0/0 = NaN`, NaN propagation, `ceil` and the saturating
`as usize` cast (NaN ↦ 0) — which is the whole of the computation analysed
here.  The logarithm results (`ln p`, `(ln 2)²`, `ln 2`) are finite `f64`
values taken as parameters. -/

inductive F64 where
  | nan
  | inf
  | neginf
  | fin (q : ℚ)
deriving DecidableEq

def F64.mul : F64 → F64 → F64
  | .nan, _ => .nan
  | _, .nan => .nan
  | .inf, .inf => .inf
  | .inf, .neginf => .neginf
  | .neginf, .inf => .neginf
  | .neginf, .neginf => .inf
  | .inf, .fin b => if b = 0 then .nan else if 0 < b then .inf else .neginf
  | .fin a, .inf => if a = 0 then .nan else if 0 < a then .inf else .neginf
  | .neginf, .fin b => if b = 0 then .nan else if 0 < b then .neginf else .inf
  | .fin a, .neginf => if a = 0 then .nan else if 0 < a then .neginf else .inf
  | .fin a, .fin b => .fin (a * b)

def F64.neg : F64 → F64
  | .nan => .nan
  | .inf => .neginf
  | .neginf => .inf
  | .fin q => .fin (-q)

def F64.div : F64 → F64 → F64
  | .nan, _ => .nan
  | _, .nan => .nan
  | .inf, .inf | .inf, .neginf | .neginf, .inf | .neginf, .neginf => .nan
  | .inf, .fin b => if 0 ≤ b then .inf else .neginf
  | .neginf, .fin b => if 0 ≤ b then .neginf else .inf
  | .fin _, .inf | .fin _, .neginf => .fin 0
  | .fin a, .fin b =>
    if b = 0 then (if a = 0 then .nan else if 0 < a then .inf else .neginf)
    else .fin (a / b)

def F64.ceilF : F64 → F64
  | .nan => .nan
  | .inf => .inf
  | .neginf => .neginf
  | .fin q => .fin ⌈q⌉

/-- Rust `as usize` on a 64-bit target: saturating cast, NaN ↦ 0, truncation
toward zero (= floor on the non-negative values reached after `ceil`). -/
def F64.toUsizeSat : F64 → Nat
  | .nan => 0
  | .neginf => 0
  | .inf => 2 ^ 64 - 1
  | .fin q => if q < 0 then 0 else if ((2 ^ 64 - 1 : Nat) : ℚ) < q then 2 ^ 64 - 1 else ⌊q⌋.toNat

/-- `BloomFilter::new` bit size:
`(-(n as f64 * p.ln()) / (2.0.ln().powi(2))).ceil() as usize`. -/
def bloomNewBitSize (n : Nat) (lnp ln2sq : F64) : Nat :=
  (F64.div (F64.neg (F64.mul (F64.fin n) lnp)) ln2sq).ceilF.toUsizeSat

/-- `BloomFilter::new` hash count:
`((bit_size as f64 / n as f64) * 2.0.ln()).ceil() as usize`. -/
def bloomNewHashCount (bitSize n : Nat) (ln2 : F64) : Nat :=
  (F64.mul (F64.div (F64.fin bitSize) (F64.fin n)) ln2).ceilF.toUsizeSat

/-- `BloomFilter::new(n, p)` with the float formulas evaluated in the `F64`
model. -/
def BloomFilter.newFromFloats (n : Nat) (lnp ln2sq ln2 : F64) : BloomFilter :=
  let m := bloomNewBitSize n lnp ln2sq
  { bits := List.replicate m false
    hash_functions := bloomNewHashCount m n ln2
    expected_items := n }

/-! ## Evaluation helpers for the claim theorems -/

/-- The SST handle `create_with_level`/`open` builds from a single record. -/
def sstSingle (path k : String) (v : Value) (lvl : Nat) (bf : BloomFilter) : SSTable :=
  { file_path := path, records := [⟨k, v⟩], record_count := 1, bloom_filter := bf
    level := lvl, min_key := k, max_key := k }

/-! ## Concrete inputs used by counterexamples and witnesses -/

/-- A concrete instantiation of the environmental hash/size parameters, used
only to exhibit concrete runs; every engine theorem holds for all
`HashParams`. -/
def hpConcrete : HashParams :=
  { bitSize := fun _ => 10
    hashCount := fun _ => 3
    hashItem := fun s seed => s.data.foldl (fun a c => a * 131 + c.toNat) (7 + seed) }

/-- The data directory written by `put("a","1"); flush(); delete("a");
flush()` on a fresh engine: one L0 SST with `Data` under the older sequence
number, one L0 SST holding the tombstone under the newer one. -/
def c1files : List (String × Except Unit (List Record)) :=
  [("sstable_000000.sst", .ok [⟨"a", Value.data "1"⟩]),
   ("sstable_000001.sst", .ok [⟨"a", Value.tombstone⟩])]

/-- A compaction input SST holding a live record for `"a"` and a tombstone
for `"b"` (the input's own Bloom filter is irrelevant to `merge_sstables`,
which only loads the records). -/
def c3input : SSTable :=
  ⟨"sstable_000000.sst", [⟨"a", Value.data "1"⟩, ⟨"b", Value.tombstone⟩], 2,
   ⟨[], 0, 0⟩, 0, "a", "b"⟩

/-- A level-1 SST handle whose stored record count is exactly
`10 * 2^20 = 10485760`.  `should_compact`/`get_level_size` read only the
`record_count` field, so the handle stands for any SST with that many
records (the body is not consulted by the functions under test). -/
def sstBoundary : SSTable :=
  ⟨"sstable_L01_000001.sst", [], 10485760, ⟨[], 0, 0⟩, 1, "k", "k"⟩

/-- Level manager (default config: multiplier 10, L0 limit 4) whose level 1
sits exactly at `max_size(1)`. -/
def lmBoundary : LevelManager :=
  { levels := [(1, [sstBoundary])], max_level := 1
    level_size_multiplier := 10, level_0_file_limit := 4 }

/-- Two-record sorted data set for the SST-creation witness. -/
def c9data : List (String × Value) := [("a", Value.data "1"), ("b", Value.data "2")]

def c9fallback : SSTable := sstSingle "" "" Value.tombstone 0 ⟨[], 0, 0⟩

/-- The SST `create_with_level` builds from `c9data` under `hpConcrete`. -/
def c9sst : SSTable :=
  (SSTable.createWithLevel hpConcrete "sstable_000000.sst" c9data 0).getD c9fallback

/-! ## Bloom filter lemmas -/

theorem getHashPositions_eq_of_pos (hp : HashParams) (k m : Nat) (item : String)
    (hm : 0 < m) :
    getHashPositions hp k m item =
      some ((List.range k).map fun i =>
        (hp.hashItem item 0 % u64Mod + i * (hp.hashItem item 1 % u64Mod) % u64Mod)
          % u64Mod % m) := by
  unfold getHashPositions
  simp [Nat.pos_iff_ne_zero.1 hm]

theorem getHashPositions_mem_lt (hp : HashParams) (k m : Nat) (item : String)
    (ps : List Nat) (h : getHashPositions hp k m item = some ps) :
    ∀ p ∈ ps, p < m := by
  simp only [getHashPositions] at h
  split at h
  · exact absurd h (by simp)
  · next hcond =>
    injection h with h
    subst h
    intro p hp'
    obtain ⟨i, hi, rfl⟩ := List.mem_map.1 hp'
    rcases Nat.eq_zero_or_pos m with hm | hm
    · push_neg at hcond
      have hk := hcond hm
      subst hk
      simp at hi
    · exact Nat.mod_lt _ hm

theorem length_foldl_set (ps : List Nat) (bs : List Bool) :
    (ps.foldl (fun bs p => bs.set p true) bs).length = bs.length := by
  induction ps generalizing bs with
  | nil => rfl
  | cons p ps ih => simp [List.foldl_cons, ih, List.length_set]

theorem getD_set_true_of_getD (bs : List Bool) (i j : Nat)
    (h : bs.getD i false = true) : ((bs.set j true).getD i false) = true := by
  induction bs generalizing i j with
  | nil => simp [List.getD] at h
  | cons b bs ih =>
    cases j with
    | zero => cases i <;> simp_all [List.getD, List.set]
    | succ j => cases i <;> simp_all [List.getD, List.set]

theorem getD_set_true_self (bs : List Bool) (i : Nat) (h : i < bs.length) :
    ((bs.set i true).getD i false) = true := by
  induction bs generalizing i with
  | nil => simp at h
  | cons b bs ih =>
    cases i with
    | zero => simp [List.set, List.getD]
    | succ i => simpa [List.set, List.getD] using ih i (by simpa using h)

theorem getD_foldl_set_of_getD (ps : List Nat) (bs : List Bool) (i : Nat)
    (h : bs.getD i false = true) :
    ((ps.foldl (fun bs p => bs.set p true) bs).getD i false) = true := by
  induction ps generalizing bs with
  | nil => exact h
  | cons p ps ih => exact ih _ (getD_set_true_of_getD bs i p h)

theorem getD_foldl_set_of_mem (ps : List Nat) (bs : List Bool) (p : Nat)
    (hmem : p ∈ ps) (hlt : p < bs.length) :
    ((ps.foldl (fun bs q => bs.set q true) bs).getD p false) = true := by
  induction ps generalizing bs with
  | nil => simp at hmem
  | cons q ps ih =>
    rcases List.mem_cons.1 hmem with rfl | hmem'
    · exact getD_foldl_set_of_getD ps _ p (getD_set_true_self bs p hlt)
    · exact ih _ hmem' (by simpa [List.length_set] using hlt)

theorem contains_eq_of_positions (hp : HashParams) (bf : BloomFilter) (item : String)
    (ps : List Nat)
    (h : getHashPositions hp bf.hash_functions bf.bits.length item = some ps) :
    BloomFilter.contains hp bf item = some (ps.all fun p => bf.bits.getD p false) := by
  unfold BloomFilter.contains
  rw [h]

/-- Inserting an item makes `contains` answer `true` for it: the Bloom filter
has no false negatives for the key just inserted. -/
theorem contains_insert_self (hp : HashParams) (bf : BloomFilter) (item : String)
    (bf' : BloomFilter) (h : BloomFilter.insert hp bf item = some bf') :
    BloomFilter.contains hp bf' item = some true := by
  unfold BloomFilter.insert at h
  cases hps : getHashPositions hp bf.hash_functions bf.bits.length item with
  | none => rw [hps] at h; cases h
  | some ps =>
    rw [hps] at h
    injection h with h
    subst h
    have hlen : (ps.foldl (fun bs p => bs.set p true) bf.bits).length = bf.bits.length :=
      length_foldl_set ps bf.bits
    have hps' : getHashPositions hp bf.hash_functions
        ((ps.foldl (fun bs p => bs.set p true) bf.bits).length) item = some ps := by
      rw [hlen]; exact hps
    rw [contains_eq_of_positions hp _ item ps hps']
    simp only [Option.some.injEq]
    rw [List.all_eq_true]
    intro p hmem
    have hlt : p < bf.bits.length := getHashPositions_mem_lt hp _ _ item ps hps p hmem
    exact getD_foldl_set_of_mem ps bf.bits p hmem hlt

/-- Inserting another item never unsets a bit: `contains` stays `true`. -/
theorem contains_insert_mono (hp : HashParams) (bf : BloomFilter) (item other : String)
    (bf' : BloomFilter) (hc : BloomFilter.contains hp bf item = some true)
    (h : BloomFilter.insert hp bf other = some bf') :
    BloomFilter.contains hp bf' item = some true := by
  unfold BloomFilter.insert at h
  cases hqs : getHashPositions hp bf.hash_functions bf.bits.length other with
  | none => rw [hqs] at h; cases h
  | some qs =>
    rw [hqs] at h
    injection h with h
    subst h
    cases hps : getHashPositions hp bf.hash_functions bf.bits.length item with
    | none =>
      unfold BloomFilter.contains at hc
      rw [hps] at hc
      cases hc
    | some ps =>
      have hall : (ps.all fun p => bf.bits.getD p false) = true := by
        rw [contains_eq_of_positions hp bf item ps hps] at hc
        injection hc
      have hlen : (qs.foldl (fun bs p => bs.set p true) bf.bits).length = bf.bits.length :=
        length_foldl_set qs bf.bits
      have hps' : getHashPositions hp bf.hash_functions
          ((qs.foldl (fun bs p => bs.set p true) bf.bits).length) item = some ps := by
        rw [hlen]; exact hps
      rw [contains_eq_of_positions hp _ item ps hps']
      simp only [Option.some.injEq]
      rw [List.all_eq_true] at hall ⊢
      intro p hmem
      exact getD_foldl_set_of_getD qs bf.bits p (hall p hmem)

/-- `insert` succeeds (no `% 0` panic) when the bit array is non-empty or the
hash count is zero; the result has the same bit-array length and hash count. -/
theorem insert_isSome (hp : HashParams) (bf : BloomFilter) (item : String)
    (h : 0 < bf.bits.length ∨ bf.hash_functions = 0) :
    ∃ bf', BloomFilter.insert hp bf item = some bf' ∧
      bf'.bits.length = bf.bits.length ∧
      bf'.hash_functions = bf.hash_functions := by
  rcases h with hm | hk
  · rw [BloomFilter.insert, getHashPositions_eq_of_pos hp _ _ item hm]
    exact ⟨_, rfl, length_foldl_set _ _, rfl⟩
  · have hpos : getHashPositions hp bf.hash_functions bf.bits.length item = some [] := by
      unfold getHashPositions; simp [hk]
    rw [BloomFilter.insert, hpos]
    exact ⟨_, rfl, length_foldl_set [] _, rfl⟩

theorem bloomInsertAll_mono (hp : HashParams) (ks : List String) (bf bf' : BloomFilter)
    (item : String) (hc : BloomFilter.contains hp bf item = some true)
    (h : bloomInsertAll hp ks bf = some bf') :
    BloomFilter.contains hp bf' item = some true := by
  induction ks generalizing bf with
  | nil => cases h; exact hc
  | cons k ks ih =>
    unfold bloomInsertAll at h
    cases hins : BloomFilter.insert hp bf k with
    | none => rw [hins] at h; cases h
    | some bf1 =>
      rw [hins] at h
      exact ih bf1 (contains_insert_mono hp bf item k bf1 hc hins) h

/-- After inserting all keys, the Bloom filter reports `true` for each: no
false negatives over the inserted key set. -/
theorem bloomInsertAll_contains (hp : HashParams) (ks : List String)
    (bf bf' : BloomFilter) (h : bloomInsertAll hp ks bf = some bf') :
    ∀ k ∈ ks, BloomFilter.contains hp bf' k = some true := by
  induction ks generalizing bf with
  | nil => intro k hk; simp at hk
  | cons k0 ks ih =>
    unfold bloomInsertAll at h
    cases hins : BloomFilter.insert hp bf k0 with
    | none => rw [hins] at h; cases h
    | some bf1 =>
      rw [hins] at h
      intro k hk
      rcases List.mem_cons.1 hk with rfl | hk'
      · exact bloomInsertAll_mono hp ks bf1 bf' k
          (contains_insert_self hp bf k bf1 hins) h
      · exact ih bf1 h k hk'

theorem bloomInsertAll_isSome (hp : HashParams) (ks : List String) (bf : BloomFilter)
    (h : 0 < bf.bits.length ∨ bf.hash_functions = 0) :
    ∃ bf', bloomInsertAll hp ks bf = some bf' ∧
      bf'.bits.length = bf.bits.length ∧ bf'.hash_functions = bf.hash_functions := by
  induction ks generalizing bf with
  | nil => exact ⟨bf, rfl, rfl, rfl⟩
  | cons k ks ih =>
    obtain ⟨bf1, hins, hlen, hhf⟩ := insert_isSome hp bf k h
    obtain ⟨bf', hrest, hlen', hhf'⟩ := ih bf1 (by rw [hlen, hhf]; exact h)
    refine ⟨bf', ?_, by rw [hlen', hlen], by rw [hhf', hhf]⟩
    unfold bloomInsertAll
    rw [hins]
    exact hrest


theorem createWithLevel_single (hp : HashParams) (path k : String) (v : Value)
    (lvl : Nat) (hm : 0 < hp.bitSize 1) :
    ∃ bf, SSTable.createWithLevel hp path [(k, v)] lvl = some (sstSingle path k v lvl bf) ∧
      BloomFilter.contains hp bf k = some true := by
  have hlen : (BloomFilter.new hp 1).bits.length = hp.bitSize 1 := by
    simp [BloomFilter.new]
  obtain ⟨bf1, hins, _, _⟩ := insert_isSome hp (BloomFilter.new hp 1) k
    (Or.inl (by rw [hlen]; exact hm))
  refine ⟨bf1, ?_, contains_insert_self hp _ k bf1 hins⟩
  unfold SSTable.createWithLevel
  simp only [List.map, List.length_cons, List.length_nil, Nat.zero_add]
  unfold bloomInsertAll
  rw [hins]
  rfl

theorem openFile_single (hp : HashParams) (path k : String) (v : Value)
    (hm : 0 < hp.bitSize 1) :
    ∃ bf, SSTable.openFile hp path (.ok [⟨k, v⟩]) = some (.ok (sstSingle path k v 0 bf)) ∧
      BloomFilter.contains hp bf k = some true := by
  have hlen : (BloomFilter.new hp 1).bits.length = hp.bitSize 1 := by
    simp [BloomFilter.new]
  obtain ⟨bf1, hins, _, _⟩ := insert_isSome hp (BloomFilter.new hp 1) k
    (Or.inl (by rw [hlen]; exact hm))
  refine ⟨bf1, ?_, contains_insert_self hp _ k bf1 hins⟩
  unfold SSTable.openFile
  simp only [List.map, List.length_cons, List.length_nil, Nat.zero_add]
  unfold bloomInsertAll
  rw [hins]
  rfl

/-! ## Engine evaluation lemmas -/

theorem flushMemtable_single (hp : HashParams) (lm : LevelManager) (cfg : LSMConfig)
    (id : Nat) (wal : List WALEntry) (cid : Nat) (k : String) (v : Value)
    (hm : 0 < hp.bitSize 1) :
    ∃ bf, LSMTree.flushMemtable hp ⟨[(k, v)], lm, cfg, id, wal, cid⟩ =
      some ⟨[], lm.addSSTable (sstSingle (sstFlushName id) k v 0 bf) 0, cfg, id + 1,
            if cfg.enable_wal then [] else wal, cid⟩ ∧
      BloomFilter.contains hp bf k = some true := by
  obtain ⟨bf, hcr, hc⟩ := createWithLevel_single hp (sstFlushName id) k v 0 hm
  refine ⟨bf, ?_, hc⟩
  unfold LSMTree.flushMemtable
  simp only [hcr]
  rfl

theorem sstGet_single (hp : HashParams) (path k : String) (v : Value) (lvl : Nat)
    (bf : BloomFilter) (hc : BloomFilter.contains hp bf k = some true) :
    SSTable.get hp (sstSingle path k v lvl bf) k =
      some (match v with | Value.data s => some s | Value.tombstone => none) := by
  unfold SSTable.get sstSingle
  simp only [hc]
  cases v <;> simp [scanFind]

theorem getFrom_cons_found (hp : HashParams) (sst : SSTable) (rest : List SSTable)
    (key s : String) (hc : BloomFilter.contains hp sst.bloom_filter key = some true)
    (hg : SSTable.get hp sst key = some (some s)) :
    getFromSSTables hp (sst :: rest) key = some (some s) := by
  unfold getFromSSTables
  rw [hc, hg]

theorem getFrom_cons_continue (hp : HashParams) (sst : SSTable) (rest : List SSTable)
    (key : String) (hc : BloomFilter.contains hp sst.bloom_filter key = some true)
    (hg : SSTable.get hp sst key = some none) :
    getFromSSTables hp (sst :: rest) key = getFromSSTables hp rest key := by
  conv_lhs => unfold getFromSSTables
  rw [hc, hg]

theorem loadLoop_cons_ok (hp : HashParams) (f : String × Except Unit (List Record))
    (rest : List (String × Except Unit (List Record))) (acc : List SSTable)
    (sst : SSTable) (h : SSTable.openFile hp f.1 f.2 = some (.ok sst)) :
    loadLoop hp (f :: rest) acc = loadLoop hp rest (acc ++ [sst]) := by
  conv_lhs => unfold loadLoop
  rw [h]

/-! ## String order lemmas -/

theorem charsLt_irrefl (l : List Char) : charsLt l l = false := by
  induction l with
  | nil => rfl
  | cons x xs ih => simp [charsLt, ih]

theorem charsLt_trans : ∀ (a b c : List Char),
    charsLt a b = true → charsLt b c = true → charsLt a c = true := by
  intro a
  induction a with
  | nil =>
    intro b c hab hbc
    cases b with
    | nil => simp [charsLt] at hab
    | cons y ys =>
      cases c with
      | nil => simp [charsLt] at hbc
      | cons z zs => simp [charsLt]
  | cons x xs ih =>
    intro b c hab hbc
    cases b with
    | nil => simp [charsLt] at hab
    | cons y ys =>
      cases c with
      | nil => simp [charsLt] at hbc
      | cons z zs =>
        simp only [charsLt] at hab hbc ⊢
        rcases Nat.lt_trichotomy x.toNat y.toNat with hxy | hxy | hxy
        · rcases Nat.lt_trichotomy y.toNat z.toNat with hyz | hyz | hyz
          · simp [Nat.lt_trans hxy hyz]
          · simp [hyz ▸ hxy]
          · simp [hyz, Nat.lt_asymm hyz] at hbc
        · rcases Nat.lt_trichotomy y.toNat z.toNat with hyz | hyz | hyz
          · simp [hxy ▸ hyz]
          · have hxz : ¬ x.toNat < z.toNat := by omega
            have hzx : ¬ z.toNat < x.toNat := by omega
            simp only [if_neg (by omega : ¬ x.toNat < y.toNat),
              if_neg (by omega : ¬ y.toNat < x.toNat)] at hab
            simp only [if_neg (by omega : ¬ y.toNat < z.toNat),
              if_neg (by omega : ¬ z.toNat < y.toNat)] at hbc
            simp only [if_neg hxz, if_neg hzx]
            exact ih ys zs hab hbc
          · simp [hyz, Nat.lt_asymm hyz] at hbc
        · simp [hxy, Nat.lt_asymm hxy] at hab

theorem strLt_irrefl (s : String) : ¬ (strLt s s = true) := by
  simp [strLt, charsLt_irrefl]

theorem strLt_trans (a b c : String) (h1 : strLt a b = true) (h2 : strLt b c = true) :
    strLt a c = true :=
  charsLt_trans a.data b.data c.data h1 h2

/-! ## WAL framing lemmas -/

theorem u32_le_roundtrip (n : Nat) (h : n < 2 ^ 32) :
    u32FromLE (n % 256) (n / 256 % 256) (n / 65536 % 256) (n / 16777216 % 256) = n := by
  unfold u32FromLE
  omega

theorem readAllGo_frames (decode : List Nat → Except Unit WALEntry)
    (encode : WALEntry → List Nat) (entries : List WALEntry) (tail : List Nat)
    (acc : List WALEntry)
    (hdec : ∀ e ∈ entries, decode (encode e) = .ok e)
    (hlen : ∀ e ∈ entries, (encode e).length < 2 ^ 32)
    (htail : tail.length < 4) :
    readAllGo decode (walFrames encode entries ++ tail) acc = .ok (acc ++ entries) := by
  induction entries generalizing acc with
  | nil =>
    rcases tail with _ | ⟨a, _ | ⟨b, _ | ⟨c, _ | ⟨d, r⟩⟩⟩⟩
    · simp [walFrames, readAllGo]
    · simp [walFrames, readAllGo]
    · simp [walFrames, readAllGo]
    · simp [walFrames, readAllGo]
    · exfalso; simp [List.length_cons] at htail; omega
  | cons e es ih =>
    have hlen_e : (encode e).length < 2 ^ 32 := hlen e (List.mem_cons_self e es)
    have hdec_e : decode (encode e) = .ok e := hdec e (List.mem_cons_self e es)
    have hshape : walFrames encode (e :: es) ++ tail =
        ((encode e).length % 256) :: ((encode e).length / 256 % 256) ::
        ((encode e).length / 65536 % 256) :: ((encode e).length / 16777216 % 256) ::
        (encode e ++ (walFrames encode es ++ tail)) := by
      simp [walFrames, u32ToLE, List.append_assoc]
    rw [hshape]
    rw [readAllGo]
    rw [u32_le_roundtrip _ hlen_e]
    have hnotlt : ¬ ((encode e ++ (walFrames encode es ++ tail)).length < (encode e).length) := by
      simp [List.length_append]
    rw [if_neg hnotlt]
    rw [List.take_left, hdec_e, List.drop_left]
    show readAllGo decode (walFrames encode es ++ tail) (acc ++ [e]) = Except.ok (acc ++ e :: es)
    rw [ih (acc ++ [e]) (fun x hx => hdec x (List.mem_cons_of_mem e hx))
      (fun x hx => hlen x (List.mem_cons_of_mem e hx))]
    simp

/-! ## Startup-loading lemmas -/

theorem openFile_ok_shape (hp : HashParams) (path : String)
    (content : Except Unit (List Record)) (sst : SSTable)
    (h : SSTable.openFile hp path content = some (.ok sst)) :
    sst.level = 0 ∧ sst.file_path = path ∧ content = Except.ok sst.records := by
  cases content with
  | error e =>
    unfold SSTable.openFile at h
    dsimp only at h
    injection h with h
    cases h
  | ok records =>
    unfold SSTable.openFile at h
    dsimp only at h
    cases hb : bloomInsertAll hp (records.map Record.key) (BloomFilter.new hp records.length) with
    | none => rw [hb] at h; cases h
    | some bf =>
      rw [hb] at h
      injection h with h
      injection h with h
      subst h
      exact ⟨rfl, rfl, rfl⟩

theorem loadLoop_mem (hp : HashParams) :
    ∀ (fs : List (String × Except Unit (List Record))) (acc out : List SSTable),
    loadLoop hp fs acc = some out →
    ∀ s ∈ out, s ∈ acc ∨
      (s.level = 0 ∧ ∃ f ∈ fs, s.file_path = f.1 ∧ f.2 = Except.ok s.records) := by
  intro fs
  induction fs with
  | nil =>
    intro acc out h s hs
    unfold loadLoop at h
    injection h with h
    subst h
    exact Or.inl hs
  | cons f rest ih =>
    intro acc out h s hs
    unfold loadLoop at h
    cases ho : SSTable.openFile hp f.1 f.2 with
    | none => rw [ho] at h; cases h
    | some r =>
      rw [ho] at h
      cases r with
      | error e =>
        rcases ih acc out h s hs with hacc | ⟨hl, g, hg, hfp, hrec⟩
        · exact Or.inl hacc
        · exact Or.inr ⟨hl, g, List.mem_cons_of_mem f hg, hfp, hrec⟩
      | ok sst =>
        rcases ih (acc ++ [sst]) out h s hs with hacc | ⟨hl, g, hg, hfp, hrec⟩
        · rcases List.mem_append.1 hacc with h1 | h1
          · exact Or.inl h1
          · have hs' : s = sst := by simpa using h1
            subst hs'
            obtain ⟨hl0, hfp0, hc0⟩ := openFile_ok_shape hp f.1 f.2 s ho
            exact Or.inr ⟨hl0, f, List.mem_cons_self f rest, hfp0, hc0⟩
        · exact Or.inr ⟨hl, g, List.mem_cons_of_mem f hg, hfp, hrec⟩

theorem mem_insertBy {α : Type} (le : α → α → Bool) (a b : α) (l : List α) :
    b ∈ insertBy le a l ↔ b = a ∨ b ∈ l := by
  induction l with
  | nil => simp [insertBy]
  | cons x xs ih =>
    unfold insertBy
    by_cases hle : le a x = true
    · simp [hle]
    · simp only [if_neg hle, List.mem_cons, ih]
      tauto

theorem mem_sortBy {α : Type} (le : α → α → Bool) (b : α) (l : List α) :
    b ∈ sortBy le l ↔ b ∈ l := by
  induction l with
  | nil => simp [sortBy]
  | cons x xs ih =>
    unfold sortBy
    rw [mem_insertBy, ih]
    simp

theorem levelsSet_key_mem (levels : List (Nat × List SSTable)) (l : Nat)
    (v : List SSTable) (e : Nat × List SSTable) (h : e ∈ levelsSet levels l v) :
    e.1 = l ∨ e ∈ levels := by
  induction levels with
  | nil =>
    unfold levelsSet at h
    rcases List.mem_singleton.1 h with rfl
    exact Or.inl rfl
  | cons p rest ih =>
    unfold levelsSet at h
    by_cases h1 : l < p.1
    · rw [if_pos h1] at h
      rcases List.mem_cons.1 h with rfl | hmem
      · exact Or.inl rfl
      · exact Or.inr hmem
    · rw [if_neg h1] at h
      by_cases h2 : l = p.1
      · rw [if_pos h2] at h
        rcases List.mem_cons.1 h with rfl | hmem
        · exact Or.inl rfl
        · exact Or.inr (List.mem_cons_of_mem p hmem)
      · rw [if_neg h2] at h
        rcases List.mem_cons.1 h with rfl | hmem
        · exact Or.inr (List.mem_cons_self p rest)
        · rcases ih hmem with hk | hm
          · exact Or.inl hk
          · exact Or.inr (List.mem_cons_of_mem p hm)

theorem addSSTable_zero_inv (lm : LevelManager) (s : SSTable)
    (hmax : lm.max_level = 0) (hkeys : ∀ e ∈ lm.levels, e.1 = 0) :
    (lm.addSSTable s 0).max_level = 0 ∧
    (∀ e ∈ (lm.addSSTable s 0).levels, e.1 = 0) ∧
    (lm.addSSTable s 0).level_size_multiplier = lm.level_size_multiplier ∧
    (lm.addSSTable s 0).level_0_file_limit = lm.level_0_file_limit := by
  unfold LevelManager.addSSTable
  simp only [Nat.not_lt_zero, gt_iff_lt, Nat.lt_irrefl, if_neg (by omega : ¬ (0 : Nat) > lm.max_level)]
  refine ⟨hmax, ?_, rfl, rfl⟩
  intro e he
  rcases levelsSet_key_mem lm.levels 0 _ e (by simpa using he) with hk | hm
  · exact hk
  · exact hkeys e hm

theorem openFile_isSome (hp : HashParams) (path : String)
    (content : Except Unit (List Record))
    (hbs : ∀ n, 0 < n → 0 < hp.bitSize n) :
    ∃ r, SSTable.openFile hp path content = some r := by
  cases content with
  | error e => exact ⟨.error e, rfl⟩
  | ok records =>
    cases records with
    | nil => exact ⟨_, rfl⟩
    | cons r rs =>
      have hlen : (BloomFilter.new hp (r :: rs).length).bits.length =
          hp.bitSize (r :: rs).length := by simp [BloomFilter.new]
      obtain ⟨bf, hb, _, _⟩ := bloomInsertAll_isSome hp ((r :: rs).map Record.key)
        (BloomFilter.new hp (r :: rs).length)
        (Or.inl (by rw [hlen]; exact hbs _ (by simp)))
      unfold SSTable.openFile
      dsimp only
      rw [hb]
      exact ⟨_, rfl⟩

theorem loadLoop_isSome (hp : HashParams)
    (hbs : ∀ n, 0 < n → 0 < hp.bitSize n) :
    ∀ (fs : List (String × Except Unit (List Record))) (acc : List SSTable),
    ∃ out, loadLoop hp fs acc = some out := by
  intro fs
  induction fs with
  | nil => intro acc; exact ⟨acc, rfl⟩
  | cons f rest ih =>
    intro acc
    obtain ⟨r, hr⟩ := openFile_isSome hp f.1 f.2 hbs
    cases r with
    | error e =>
      obtain ⟨out, hout⟩ := ih acc
      refine ⟨out, ?_⟩
      unfold loadLoop
      rw [hr]
      exact hout
    | ok sst =>
      obtain ⟨out, hout⟩ := ih (acc ++ [sst])
      refine ⟨out, ?_⟩
      unfold loadLoop
      rw [hr]
      exact hout

/-! ## Claim theorems -/

/-- C1 (code bug): the claim says that when a key's most recent mutation was
a delete, `get` returns `None` — in particular that a flushed tombstone
shadows `Data` for the same key in an older SST, the read path stopping when
an SST lookup answers `None` via a tombstone.  The code does the opposite:
`SSTable::get` folds "tombstone" and "absent" into one `None`, and
`LSMTree::get` continues to older SSTs on any `None`.  Evaluating the code on
the directory written by `put("a","1"); flush(); delete("a"); flush()` and
reopened (`c1files`: the tombstone SST is walked first), `get("a")` consults
the tombstone SST, gets `None`, continues, and returns the stale
`Some("1")` from the older SST — for every hash-parameter instantiation with
a non-degenerate Bloom bit count. -/
theorem c1_tombstone_not_shadowing (hp : HashParams) (hm : 0 < hp.bitSize 1) :
    ((openFromDir hp ⟨1000, false⟩ c1files).bind fun t => LSMTree.get hp t "a") =
      some (some "1") := by
  obtain ⟨bfB, hoB, hcB⟩ := openFile_single hp "sstable_000001.sst" "a" Value.tombstone hm
  obtain ⟨bfA, hoA, hcA⟩ := openFile_single hp "sstable_000000.sst" "a" (Value.data "1") hm
  set B := sstSingle "sstable_000001.sst" "a" Value.tombstone 0 bfB with hB
  set A := sstSingle "sstable_000000.sst" "a" (Value.data "1") 0 bfA with hA
  have hload : loadExistingSSTables hp c1files = some [B, A] := by
    show loadLoop hp [("sstable_000001.sst", .ok [⟨"a", Value.tombstone⟩]),
      ("sstable_000000.sst", .ok [⟨"a", Value.data "1"⟩])] [] = some [B, A]
    rw [loadLoop_cons_ok hp _ _ _ B hoB, loadLoop_cons_ok hp _ _ _ A hoA]
    rfl
  have hopen : openFromDir hp ⟨1000, false⟩ c1files =
      some ⟨[], (LevelManager.new.addSSTable B 0).addSSTable A 0, ⟨1000, false⟩, 2, [], 2⟩ := by
    unfold openFromDir
    rw [hload]
    rfl
  rw [hopen, Option.some_bind]
  have hget : LSMTree.get hp
      ⟨[], (LevelManager.new.addSSTable B 0).addSSTable A 0, ⟨1000, false⟩, 2, [], 2⟩ "a" =
      getFromSSTables hp [B, A] "a" := by
    unfold LSMTree.get
    rfl
  rw [hget]
  rw [getFrom_cons_continue hp B [A] "a" hcB (sstGet_single hp _ "a" Value.tombstone 0 bfB hcB)]
  rw [getFrom_cons_found hp A [] "a" "1" hcA (sstGet_single hp _ "a" (Value.data "1") 0 bfA hcA)]

/-- Witness for C1 at the concrete parameters `hpConcrete`. -/
theorem c1_tombstone_not_shadowing_witness :
    0 < hpConcrete.bitSize 1 ∧
    ((openFromDir hpConcrete ⟨1000, false⟩ c1files).bind fun t =>
      LSMTree.get hpConcrete t "a") = some (some "1") :=
  ⟨by decide, c1_tombstone_not_shadowing hpConcrete (by decide)⟩

/-- C2 (code bug): the claim says `get` returns the value from the newest SST
holding the key, L0 being visited newest-first, so that
`put("k","1"); flush(); put("k","2"); flush(); get("k")` yields
`Some("2")`.  In the code, `LevelManager::add_sstable` pushes each freshly
flushed SST to the *back* of the L0 vector and `get_all_sstables` returns
that vector in order, so within a run L0 is walked oldest-first and the
sequence returns the stale `Some("1")` — for every hash-parameter
instantiation with a non-degenerate Bloom bit count. -/
theorem c2_l0_oldest_first (hp : HashParams) (hm : 0 < hp.bitSize 1) :
    ((LSMTree.insert hp (LSMTree.newEmptyDir ⟨10, true⟩) "k" "1").bind fun t1 =>
     (LSMTree.flush hp t1).bind fun t2 =>
     (LSMTree.insert hp t2 "k" "2").bind fun t3 =>
     (LSMTree.flush hp t3).bind fun t4 =>
     LSMTree.get hp t4 "k") = some (some "1") := by
  obtain ⟨bf1, h2, hc1⟩ := flushMemtable_single hp LevelManager.new ⟨10, true⟩ 0
    [WALEntry.insert "k" "1"] 0 "k" (Value.data "1") hm
  have h1 : LSMTree.insert hp (LSMTree.newEmptyDir ⟨10, true⟩) "k" "1" =
      some ⟨[("k", Value.data "1")], LevelManager.new, ⟨10, true⟩, 0,
            [WALEntry.insert "k" "1"], 0⟩ := rfl
  rw [h1, Option.some_bind]
  have h2' : LSMTree.flush hp ⟨[("k", Value.data "1")], LevelManager.new, ⟨10, true⟩, 0,
      [WALEntry.insert "k" "1"], 0⟩ =
      LSMTree.flushMemtable hp ⟨[("k", Value.data "1")], LevelManager.new, ⟨10, true⟩, 0,
      [WALEntry.insert "k" "1"], 0⟩ := rfl
  rw [h2', h2, Option.some_bind]
  set A := sstSingle (sstFlushName 0) "k" (Value.data "1") 0 bf1 with hA
  have h3 : LSMTree.insert hp
      ⟨[], LevelManager.new.addSSTable A 0, ⟨10, true⟩, 1,
        if LSMConfig.enable_wal ⟨10, true⟩ then [] else [WALEntry.insert "k" "1"], 0⟩ "k" "2" =
      some ⟨[("k", Value.data "2")], LevelManager.new.addSSTable A 0, ⟨10, true⟩, 1,
        [WALEntry.insert "k" "2"], 0⟩ := rfl
  rw [h3, Option.some_bind]
  obtain ⟨bf2, h4, hc2⟩ := flushMemtable_single hp (LevelManager.new.addSSTable A 0) ⟨10, true⟩ 1
    [WALEntry.insert "k" "2"] 0 "k" (Value.data "2") hm
  have h4' : LSMTree.flush hp ⟨[("k", Value.data "2")], LevelManager.new.addSSTable A 0,
      ⟨10, true⟩, 1, [WALEntry.insert "k" "2"], 0⟩ =
      LSMTree.flushMemtable hp ⟨[("k", Value.data "2")], LevelManager.new.addSSTable A 0,
      ⟨10, true⟩, 1, [WALEntry.insert "k" "2"], 0⟩ := rfl
  rw [h4', h4, Option.some_bind]
  set B := sstSingle (sstFlushName 1) "k" (Value.data "2") 0 bf2 with hB
  have hget : LSMTree.get hp
      ⟨[], (LevelManager.new.addSSTable A 0).addSSTable B 0, ⟨10, true⟩, 2,
        if LSMConfig.enable_wal ⟨10, true⟩ then [] else [WALEntry.insert "k" "2"], 0⟩ "k" =
      getFromSSTables hp [A, B] "k" := by
    unfold LSMTree.get
    rfl
  rw [hget]
  rw [getFrom_cons_found hp A [B] "k" "1" hc1 (sstGet_single hp _ "k" (Value.data "1") 0 bf1 hc1)]

/-- Witness for C2 at the concrete parameters `hpConcrete`. -/
theorem c2_l0_oldest_first_witness :
    0 < hpConcrete.bitSize 1 ∧
    ((LSMTree.insert hpConcrete (LSMTree.newEmptyDir ⟨10, true⟩) "k" "1").bind fun t1 =>
     (LSMTree.flush hpConcrete t1).bind fun t2 =>
     (LSMTree.insert hpConcrete t2 "k" "2").bind fun t3 =>
     (LSMTree.flush hpConcrete t3).bind fun t4 =>
     LSMTree.get hpConcrete t4 "k") = some (some "1") :=
  ⟨by decide, c2_l0_oldest_first hpConcrete (by decide)⟩

/-- C3 (code bug): the claim (and spec §4.9/§9) says a record whose final
merged value is `Tombstone` is dropped only when the compaction targets the
bottom-most level, and MUST be preserved otherwise.
`LeveledCompactor::merge_sstables` has no notion of the bottom-most level at
all: the `retain` drops every tombstone unconditionally.  Evaluating the
merge of `c3input` (live `"a"`, tombstone `"b"`) with target level 1 — e.g.
inside an L0→L1 compaction of a database whose bottom-most level is 2 — the
output SST contains only the `"a"` record; the tombstone for `"b"` is gone. -/
theorem c3_tombstone_dropped_above_bottom (hp : HashParams) (hm : 0 < hp.bitSize 1)
    (id : Nat) :
    (mergeSSTables hp [c3input] 1 id).map (fun r => (r.1.map SSTable.records, r.2)) =
      some ([[⟨"a", Value.data "1"⟩]], id + 1) := by
  obtain ⟨bf, hcr, _⟩ := createWithLevel_single hp (sstCompactedName 1 id) "a" (Value.data "1") 1 hm
  have h1 : mergeSSTables hp [c3input] 1 id =
      mergeSplit hp 1 [("a", Value.data "1")] [] [] 0 id := rfl
  have h2 : mergeSplit hp 1 [("a", Value.data "1")] [] [] 0 id =
      mergeSplit hp 1 [] [] [("a", Value.data "1")] 2 id := rfl
  have h3 : mergeSplit hp 1 [] [] [("a", Value.data "1")] 2 id =
      some ([sstSingle (sstCompactedName 1 id) "a" (Value.data "1") 1 bf], id + 1) := by
    conv_lhs => unfold mergeSplit
    rw [hcr]
    rfl
  rw [h1, h2, h3]
  rfl

/-- Witness for C3 at the concrete parameters `hpConcrete` and id 7. -/
theorem c3_tombstone_dropped_above_bottom_witness :
    0 < hpConcrete.bitSize 1 ∧
    (mergeSSTables hpConcrete [c3input] 1 7).map
      (fun r => (r.1.map SSTable.records, r.2)) = some ([[⟨"a", Value.data "1"⟩]], 8) :=
  ⟨by decide, c3_tombstone_dropped_above_bottom hpConcrete (by decide) 7⟩

/-- C4 (code bug): the claim says that immediately after a successful
`put(k,v)` with no intervening mutation of `k`, `get(k)` returns `Some(v)`,
also when the record was flushed to an SST by the size threshold.  With
`memtable_size_limit = 1` both puts auto-flush; after `put("k","1");
put("k","2")` the read walks L0 oldest-first (see C2) and `get("k")` returns
the stale `Some("1")` instead of `Some("2")` — for every hash-parameter
instantiation with a non-degenerate Bloom bit count. -/
theorem c4_put_get_after_flush (hp : HashParams) (hm : 0 < hp.bitSize 1) :
    ((LSMTree.insert hp (LSMTree.newEmptyDir ⟨1, true⟩) "k" "1").bind fun t1 =>
     (LSMTree.insert hp t1 "k" "2").bind fun t2 =>
     LSMTree.get hp t2 "k") = some (some "1") := by
  obtain ⟨bf1, h1f, hc1⟩ := flushMemtable_single hp LevelManager.new ⟨1, true⟩ 0
    [WALEntry.insert "k" "1"] 0 "k" (Value.data "1") hm
  have h1 : LSMTree.insert hp (LSMTree.newEmptyDir ⟨1, true⟩) "k" "1" =
      LSMTree.flushMemtable hp ⟨[("k", Value.data "1")], LevelManager.new, ⟨1, true⟩, 0,
        [WALEntry.insert "k" "1"], 0⟩ := rfl
  rw [h1, h1f, Option.some_bind]
  set A := sstSingle (sstFlushName 0) "k" (Value.data "1") 0 bf1 with hA
  obtain ⟨bf2, h2f, hc2⟩ := flushMemtable_single hp (LevelManager.new.addSSTable A 0) ⟨1, true⟩ 1
    [WALEntry.insert "k" "2"] 0 "k" (Value.data "2") hm
  have h2 : LSMTree.insert hp
      ⟨[], LevelManager.new.addSSTable A 0, ⟨1, true⟩, 1,
        if LSMConfig.enable_wal ⟨1, true⟩ then [] else [WALEntry.insert "k" "1"], 0⟩ "k" "2" =
      LSMTree.flushMemtable hp ⟨[("k", Value.data "2")], LevelManager.new.addSSTable A 0,
        ⟨1, true⟩, 1, [WALEntry.insert "k" "2"], 0⟩ := rfl
  rw [h2, h2f, Option.some_bind]
  set B := sstSingle (sstFlushName 1) "k" (Value.data "2") 0 bf2 with hB
  have hget : LSMTree.get hp
      ⟨[], (LevelManager.new.addSSTable A 0).addSSTable B 0, ⟨1, true⟩, 2,
        if LSMConfig.enable_wal ⟨1, true⟩ then [] else [WALEntry.insert "k" "2"], 0⟩ "k" =
      getFromSSTables hp [A, B] "k" := by
    unfold LSMTree.get
    rfl
  rw [hget]
  rw [getFrom_cons_found hp A [B] "k" "1" hc1 (sstGet_single hp _ "k" (Value.data "1") 0 bf1 hc1)]

/-- Witness for C4 at the concrete parameters `hpConcrete`. -/
theorem c4_put_get_after_flush_witness :
    0 < hpConcrete.bitSize 1 ∧
    ((LSMTree.insert hpConcrete (LSMTree.newEmptyDir ⟨1, true⟩) "k" "1").bind fun t1 =>
     (LSMTree.insert hpConcrete t1 "k" "2").bind fun t2 =>
     LSMTree.get hpConcrete t2 "k") = some (some "1") :=
  ⟨by decide, c4_put_get_after_flush hpConcrete (by decide)⟩

/-- C5 counterexample: opening a directory holding the compaction-produced
file `sstable_L01_000005.sst` registers it at level 0 — not at the level 1
encoded in its name — so the pre-shutdown level arrangement is not
reproduced (and `determine_next_id` cannot parse the name either, leaving
the next sequence number at 0). -/
theorem c5_counterexample :
    ((openFromDir hpConcrete ⟨1000, false⟩
        [("sstable_L01_000005.sst", .ok [⟨"a", Value.data "1"⟩])]).map fun t =>
      ((t.level_manager.getSSTablesAtLevel 0).map SSTable.file_path,
       (t.level_manager.getSSTablesAtLevel 1).map SSTable.file_path,
       t.level_manager.max_level, t.next_sstable_id)) =
    some (["sstable_L01_000005.sst"], [], 0, 0) := by decide

/-- C5 (corrected): `SSTable::open` hard-codes `level: 0`, so on open every
SST file that decodes — whatever level its filename encodes — is registered
with the level manager at level 0; `max_level` is 0 and every level ≥ 1 is
empty after recovery. -/
theorem c5_open_registers_level_zero (hp : HashParams) (cfg : LSMConfig)
    (files : List (String × Except Unit (List Record))) (t : LSMTree)
    (h : openFromDir hp cfg files = some t) :
    t.level_manager.max_level = 0 ∧ (∀ e ∈ t.level_manager.levels, e.1 = 0) ∧
    ∀ L, 1 ≤ L → t.level_manager.getSSTablesAtLevel L = [] := by
  unfold openFromDir at h
  cases hload : loadExistingSSTables hp files with
  | none => rw [hload] at h; cases h
  | some ssts =>
    rw [hload] at h
    injection h with h
    subst h
    have hlevel0 : ∀ s ∈ ssts, s.level = 0 := by
      intro s hs
      have := loadLoop_mem hp _ [] ssts hload s hs
      rcases this with habs | ⟨hl, _⟩
      · simp at habs
      · exact hl
    have hfold : ∀ (l : List SSTable) (lm : LevelManager), (∀ s ∈ l, s.level = 0) →
        lm.max_level = 0 → (∀ e ∈ lm.levels, e.1 = 0) →
        (l.foldl (fun lm s => lm.addSSTable s s.level) lm).max_level = 0 ∧
        (∀ e ∈ (l.foldl (fun lm s => lm.addSSTable s s.level) lm).levels, e.1 = 0) := by
      intro l
      induction l with
      | nil => intro lm _ h1 h2; exact ⟨h1, h2⟩
      | cons s rest ih =>
        intro lm hl h1 h2
        simp only [List.foldl_cons]
        rw [hl s (List.mem_cons_self s rest)]
        obtain ⟨ha, hb, _, _⟩ := addSSTable_zero_inv lm s h1 h2
        exact ih _ (fun x hx => hl x (List.mem_cons_of_mem s hx)) ha hb
    obtain ⟨hmax, hkeys⟩ := hfold ssts LevelManager.new hlevel0 rfl
      (by intro e he; simp [LevelManager.new] at he)
    refine ⟨hmax, hkeys, ?_⟩
    intro L hL
    unfold LevelManager.getSSTablesAtLevel levelsGet
    have hfind : (ssts.foldl (fun lm s => lm.addSSTable s s.level)
        LevelManager.new).levels.find? (fun e => e.1 == L) = none := by
      rw [List.find?_eq_none]
      intro e he
      have := hkeys e he
      simp [this]
      omega
    rw [hfind]
    rfl

/-- Witness for C5 (amended) on a directory with one corrupt file. -/
theorem c5_open_registers_level_zero_witness :
    openFromDir hpConcrete ⟨1000, false⟩ [("sstable_000001.sst", Except.error ())] =
      some (LSMTree.newEmptyDir ⟨1000, false⟩) ∧
    ((LSMTree.newEmptyDir ⟨1000, false⟩).level_manager.max_level = 0 ∧
     (∀ e ∈ (LSMTree.newEmptyDir ⟨1000, false⟩).level_manager.levels, e.1 = 0) ∧
     ∀ L, 1 ≤ L →
       (LSMTree.newEmptyDir ⟨1000, false⟩).level_manager.getSSTablesAtLevel L = []) :=
  ⟨by decide, c5_open_registers_level_zero hpConcrete ⟨1000, false⟩
    [("sstable_000001.sst", Except.error ())] (LSMTree.newEmptyDir ⟨1000, false⟩)
    (by decide)⟩

/-- C6 counterexample: a frame whose length prefix announces 2 payload bytes
while only 1 byte remains.  The claim says replay treats this as
end-of-stream and returns the entries read so far (`ok []`); `read_all`
instead surfaces the short read as a hard error. -/
theorem c6_counterexample :
    walReadAll (fun _ => .ok (WALEntry.delete "k")) [2, 0, 0, 0, 9] = .error () := by
  unfold walReadAll
  rw [readAllGo]
  norm_num [u32FromLE]

/-- C6 (corrected): WAL replay reads frames from the start in append order;
a trailing *truncated length prefix* (0–3 leftover bytes) is treated as
end-of-stream and the decoded entries are returned without error.  (A length
prefix whose payload is shorter than announced is instead a hard error — see
the counterexample.)  `decode`/`encode` stand for bincode; the hypotheses
say they round-trip on the entries present and frames fit in `u32`. -/
theorem c6_replay_reads_frames_until_partial_header
    (decode : List Nat → Except Unit WALEntry)
    (encode : WALEntry → List Nat) (entries : List WALEntry) (tail : List Nat)
    (hdec : ∀ e ∈ entries, decode (encode e) = .ok e)
    (hlen : ∀ e ∈ entries, (encode e).length < 2 ^ 32)
    (htail : tail.length < 4) :
    walReadAll decode (walFrames encode entries ++ tail) = .ok entries := by
  unfold walReadAll
  rw [readAllGo_frames decode encode entries tail [] hdec hlen htail]
  simp

/-- Witness for C6 (amended): one well-formed frame followed by a 2-byte
truncated header replays to exactly that entry. -/
theorem c6_replay_witness :
    walReadAll (fun _ => .ok (WALEntry.delete "k"))
      (walFrames (fun _ => [9]) [WALEntry.delete "k"] ++ [7, 7]) =
      .ok [WALEntry.delete "k"] :=
  c6_replay_reads_frames_until_partial_header (fun _ => .ok (WALEntry.delete "k"))
    (fun _ => [9]) [WALEntry.delete "k"] [7, 7] (by decide) (by decide) (by decide)

/-- C7 counterexample: a directory holding one undecodable SST file.  The
claim says `open` fails with a `Corrupt` error; instead `open` succeeds and
the engine comes up with the file silently excluded (empty level manager). -/
theorem c7_counterexample :
    openFromDir hpConcrete ⟨1000, false⟩ [("sstable_000000.sst", Except.error ())] =
      some (LSMTree.newEmptyDir ⟨1000, false⟩) := by decide

/-- C7 (corrected): `load_existing_sstables` catches each `SSTable::open`
failure, prints a warning and skips the file, so `open` always succeeds
(whatever mix of decodable and undecodable files the directory holds), and
every SST the engine does load stems from a file whose record stream
decoded; undecodable files are silently excluded. -/
theorem c7_open_skips_corrupt_ssts (hp : HashParams) (cfg : LSMConfig)
    (files : List (String × Except Unit (List Record)))
    (hbs : ∀ n, 0 < n → 0 < hp.bitSize n) :
    ∃ ssts t, loadExistingSSTables hp files = some ssts ∧
      openFromDir hp cfg files = some t ∧
      ∀ s ∈ ssts, ∃ f ∈ files, s.file_path = f.1 ∧ f.2 = Except.ok s.records := by
  obtain ⟨ssts, hload⟩ := loadLoop_isSome hp hbs
    ((sortBy (fun a b => strLe a.1 b.1) (files.filter fun f => hasSstExt f.1)).reverse) []
  have hload' : loadExistingSSTables hp files = some ssts := hload
  have hopen : openFromDir hp cfg files =
      some ⟨[], ssts.foldl (fun lm s => lm.addSSTable s s.level) LevelManager.new, cfg,
            determineNextId ssts, [], determineNextId ssts⟩ := by
    unfold openFromDir
    rw [hload']
  refine ⟨ssts, _, hload', hopen, ?_⟩
  intro s hs
  rcases loadLoop_mem hp _ [] ssts hload s hs with habs | ⟨_, f, hf, hfp, hrec⟩
  · simp at habs
  · refine ⟨f, ?_, hfp, hrec⟩
    have h1 := List.mem_reverse.1 hf
    have h2 := (mem_sortBy _ f _).1 h1
    exact List.mem_of_mem_filter h2

/-- Witness for C7 (amended) on a two-file directory with one corrupt file. -/
theorem c7_open_skips_corrupt_ssts_witness :
    (∀ n, 0 < n → 0 < hpConcrete.bitSize n) ∧
    ∃ ssts t, loadExistingSSTables hpConcrete
        [("sstable_000000.sst", Except.error ()),
         ("sstable_000001.sst", .ok [⟨"a", Value.data "1"⟩])] = some ssts ∧
      openFromDir hpConcrete ⟨1000, false⟩
        [("sstable_000000.sst", Except.error ()),
         ("sstable_000001.sst", .ok [⟨"a", Value.data "1"⟩])] = some t ∧
      ∀ s ∈ ssts, ∃ f ∈ [("sstable_000000.sst", (Except.error () : Except Unit (List Record))),
         ("sstable_000001.sst", .ok [⟨"a", Value.data "1"⟩])],
        s.file_path = f.1 ∧ f.2 = Except.ok s.records :=
  ⟨fun _ _ => Nat.succ_pos 9,
   c7_open_skips_corrupt_ssts hpConcrete ⟨1000, false⟩ _ (fun _ _ => Nat.succ_pos 9)⟩

/-- C8 counterexample: with the default configuration, a level 1 holding
exactly `10·2^20` records.  `should_compact(1)` answers `true` although the
level does not *strictly exceed* `max_size(1)` as the claim requires. -/
theorem c8_counterexample :
    lmBoundary.shouldCompact 1 = true ∧
    ¬ (lmBoundary.getLevelSize 1 > lmBoundary.getMaxLevelSize 1) := by decide

/-- C8 (corrected): `should_compact(0)` is true iff L0 holds at least
`l0_file_limit` files (default 4), and for L ≥ 1 `should_compact(L)` is true
iff the cumulative record count of L is *greater than or equal to*
`max_size(L)` — not strictly greater — where `max_size(1) = 10·2^20` and
`max_size(L) = max_size(1)·multiplier^(L−1)` (default multiplier 10). -/
theorem c8_should_compact_thresholds (lm : LevelManager) (L : Nat) :
    (0 < lm.level_0_file_limit →
      (lm.shouldCompact 0 = true ↔ lm.getLevelCount 0 ≥ lm.level_0_file_limit)) ∧
    (1 ≤ L → (lm.shouldCompact L = true ↔
      lm.getLevelSize L ≥ 10 * 2 ^ 20 * lm.level_size_multiplier ^ (L - 1))) := by
  constructor
  · intro hpos
    unfold LevelManager.shouldCompact LevelManager.getLevelCount
    cases hl : levelsGet lm.levels 0 with
    | none => simp; omega
    | some files => simp
  · intro hL
    match L, hL with
    | 1, _ =>
      have hsc : lm.shouldCompact 1 =
          decide (lm.getLevelSize 1 ≥ lm.getMaxLevelSize 1) := rfl
      have hmax : lm.getMaxLevelSize 1 = 10485760 := rfl
      rw [hsc, hmax]
      norm_num
    | (n + 2), _ =>
      have hsc : lm.shouldCompact (n + 2) =
          decide (lm.getLevelSize (n + 2) ≥ lm.getMaxLevelSize (n + 2)) := rfl
      have hmax : lm.getMaxLevelSize (n + 2) =
          10485760 * lm.level_size_multiplier ^ (n + 1) := rfl
      rw [hsc, hmax]
      norm_num

/-- Witness for C8 (amended) at the boundary level manager and L = 1. -/
theorem c8_should_compact_thresholds_witness :
    1 ≤ 1 ∧ (lmBoundary.shouldCompact 1 = true ↔
      lmBoundary.getLevelSize 1 ≥
        10 * 2 ^ 20 * lmBoundary.level_size_multiplier ^ (1 - 1)) :=
  ⟨by decide, (c8_should_compact_thresholds lmBoundary 1).2 (by decide)⟩

/-- C9 (confirmed): every SST produced by `create`/`create_with_level` from a
(BTreeMap-)sorted data set has records in strictly ascending key order with
no duplicate key, its Bloom filter answers `contains = true` for every
stored key (no false negatives), and `min_key`/`max_key` are the first/last
stored key. -/
theorem c9_create_invariants (hp : HashParams) (path : String)
    (data : List (String × Value)) (level : Nat) (sst : SSTable)
    (hsorted : data.Chain' fun a b => strLt a.1 b.1 = true)
    (h : SSTable.createWithLevel hp path data level = some sst) :
    sst.records.Chain' (fun r r' => strLt r.key r'.key = true) ∧
    (sst.records.map Record.key).Nodup ∧
    (∀ k ∈ sst.records.map Record.key,
      BloomFilter.contains hp sst.bloom_filter k = some true) ∧
    sst.min_key = (sst.records.map Record.key).headD "" ∧
    sst.max_key = (sst.records.map Record.key).getLastD "" := by
  unfold SSTable.createWithLevel at h
  dsimp only at h
  cases hb : bloomInsertAll hp (data.map Prod.fst) (BloomFilter.new hp data.length) with
  | none => rw [hb] at h; cases h
  | some bf =>
    rw [hb] at h
    injection h with h
    subst h
    have hkeys : ((data.map fun kv => ({ key := kv.1, value := kv.2 } : Record)).map
        Record.key) = data.map Prod.fst := by
      simp [List.map_map]
    have hchain : (data.map fun kv => ({ key := kv.1, value := kv.2 } : Record)).Chain'
        (fun r r' => strLt r.key r'.key = true) := by
      rw [List.chain'_map]
      exact hsorted
    refine ⟨hchain, ?_, ?_, ?_, ?_⟩
    · rw [hkeys]
      haveI : IsTrans String (fun a b => strLt a b = true) :=
        ⟨fun a b c => strLt_trans a b c⟩
      haveI : IsIrrefl String (fun a b => strLt a b = true) :=
        ⟨fun a => strLt_irrefl a⟩
      have hchainK : (data.map Prod.fst).Chain' (fun a b => strLt a b = true) := by
        rw [List.chain'_map]
        exact hsorted
      exact (List.chain'_iff_pairwise.1 hchainK).nodup
    · rw [hkeys]
      exact bloomInsertAll_contains hp _ _ bf hb
    · rw [hkeys]
    · rw [hkeys]

/-- Witness for C9 at `c9data` under `hpConcrete`. -/
theorem c9_create_invariants_witness :
    (c9data.Chain' fun a b => strLt a.1 b.1 = true) ∧
    SSTable.createWithLevel hpConcrete "sstable_000000.sst" c9data 0 = some c9sst ∧
    (c9sst.records.Chain' (fun r r' => strLt r.key r'.key = true) ∧
     (c9sst.records.map Record.key).Nodup ∧
     (∀ k ∈ c9sst.records.map Record.key,
       BloomFilter.contains hpConcrete c9sst.bloom_filter k = some true) ∧
     c9sst.min_key = (c9sst.records.map Record.key).headD "" ∧
     c9sst.max_key = (c9sst.records.map Record.key).getLastD "") := by
  have hsort : c9data.Chain' fun a b => strLt a.1 b.1 = true := by
    show List.Chain' _ [("a", Value.data "1"), ("b", Value.data "2")]
    exact List.chain'_cons.2 ⟨by decide, List.chain'_singleton _⟩
  have hcr : SSTable.createWithLevel hpConcrete "sstable_000000.sst" c9data 0 =
      some c9sst := by decide
  exact ⟨hsort, hcr,
    c9_create_invariants hpConcrete "sstable_000000.sst" c9data 0 c9sst hsort hcr⟩

/-- C10 (confirmed): for `BloomFilter::new(0, p)` — as built for an SST from
an empty record set — the `f64` pipeline yields bit size 0 (the product with
`n = 0` is a signed zero, so `ceil`/`as usize` give 0) and hash count 0
(`0.0 / 0.0` is NaN; `NaN as usize` saturates to 0), so the hash-position
loop never runs: `contains(k)` returns `true` for every key and never
divides by the zero bit-array length.  `lnp`/`ln2sq`/`ln2` are the finite
`f64` values of `ln p` (negative, since 0 < p < 1), `(ln 2)²` (positive) and
`ln 2`. -/
theorem c10_new_zero_items (lnp ln2sq ln2 : ℚ) (hlnp : lnp < 0) (hln2sq : 0 < ln2sq) :
    (BloomFilter.newFromFloats 0 (.fin lnp) (.fin ln2sq) (.fin ln2)).hash_functions = 0 ∧
    (BloomFilter.newFromFloats 0 (.fin lnp) (.fin ln2sq) (.fin ln2)).bits.length = 0 ∧
    ∀ (hp : HashParams) (k : String),
      BloomFilter.contains hp
        (BloomFilter.newFromFloats 0 (.fin lnp) (.fin ln2sq) (.fin ln2)) k = some true := by
  have hbs : bloomNewBitSize 0 (.fin lnp) (.fin ln2sq) = 0 := by
    unfold bloomNewBitSize
    simp only [F64.mul, Nat.cast_zero, zero_mul, F64.neg, neg_zero, F64.div,
      if_neg hln2sq.ne', zero_div, F64.ceilF, Int.ceil_zero, F64.toUsizeSat]
    norm_num
  have hshape : BloomFilter.newFromFloats 0 (.fin lnp) (.fin ln2sq) (.fin ln2) =
      ⟨[], 0, 0⟩ := by
    unfold BloomFilter.newFromFloats
    rw [hbs]
    rfl
  rw [hshape]
  refine ⟨rfl, rfl, ?_⟩
  intro hp k
  rfl

/-- Witness for C10 at concrete rational stand-ins for the logarithms. -/
theorem c10_new_zero_items_witness :
    ((-5 : ℚ) < 0 ∧ (0 : ℚ) < 1 / 2) ∧
    BloomFilter.contains hpConcrete
      (BloomFilter.newFromFloats 0 (.fin (-5)) (.fin (1 / 2)) (.fin (7 / 10)))
      "anything" = some true :=
  ⟨⟨by norm_num, by norm_num⟩,
   (c10_new_zero_items (-5) (1 / 2) (7 / 10) (by norm_num) (by norm_num)).2.2
     hpConcrete "anything"⟩

end LsmDb

